import Mathlib

/-!
Shallow embedding of the defect-record extraction engine of `src/HSE_pics.py`
(class `PDFDefectExtractor`).  Strings are modelled as `List Char`; page
coordinates as `ℚ` (PyMuPDF reports floats, but every operation performed on
them here — averaging two endpoints, squaring differences, comparing — is
exact on the rational inputs used).  The matcher compares square roots of the
squared centroid distances; since `Real.sqrt` is strictly monotone on
nonnegative arguments, comparing the squared distances with the same strict
`<` yields the identical argmin and the identical tie-breaking, so `distSq`
is compared directly.
-/

/-- ASCII model of Python's `str.isspace` characters, used by `str.strip()`
and by the regex class `\s` (the inputs here are PDF span texts). -/
def pyIsSpace (c : Char) : Bool :=
  c == ' ' || c == '\t' || c == '\n' || c == '\r' || c == '\u000B' || c == '\u000C'

/-- Python `str.strip()`: drop whitespace from both ends. -/
def pyStrip (l : List Char) : List Char :=
  List.dropWhile pyIsSpace (List.rdropWhile pyIsSpace l)

/-- Python `str.lower()` (ASCII model). -/
def lowerChars (l : List Char) : List Char := l.map Char.toLower

/-- `pat` is a prefix of `l` (executable). -/
def startsWithChars : List Char → List Char → Bool
  | [], _ => true
  | _ :: _, [] => false
  | p :: ps, c :: cs => p == c && startsWithChars ps cs

/-- Python's `pat in l` substring test. -/
def containsSub (pat : List Char) : List Char → Bool
  | [] => startsWithChars pat []
  | l@(_ :: rest) => startsWithChars pat l || containsSub pat rest

/-- The `illegal_chars` list of `_sanitize_filename` (line 181). -/
def illegalChars : List Char := ['<', '>', ':', '"', '/', '\\', '|', '?', '*', '\n', '\r', '\t']

/-- The chain of `filename.replace(char, '_')` calls of `_sanitize_filename`:
each single illegal character is replaced by `'_'`; since each replacement is
one character to one character and `'_'` is itself not illegal, the
sequential replacements equal this pointwise map. -/
def replaceIllegal (l : List Char) : List Char :=
  l.map (fun c => if c ∈ illegalChars then '_' else c)

/-- `re.sub(r'_{2,}', '_', filename)`: every maximal run of two or more
underscores becomes a single underscore. -/
def collapseUnderscores : List Char → List Char
  | [] => []
  | [c] => [c]
  | c :: d :: rest =>
    if c = '_' ∧ d = '_' then collapseUnderscores (d :: rest)
    else c :: collapseUnderscores (d :: rest)

/-- `_sanitize_filename` (lines 175-192): empty guard, illegal-character
replacement, underscore collapsing, truncation to 100, final `strip()`. -/
def sanitize_filename (l : List Char) : List Char :=
  if l = [] then "unknown".toList
  else pyStrip ((collapseUnderscores (replaceIllegal l)).take 100)

/-- A span of a PDF text line; `text` is `none` when the `"text"` key is
absent (the code uses `span.get("text", "")`). -/
structure Span where
  text : Option (List Char)
  deriving DecidableEq

/-- A line of a PDF text block; `spans` is `none` when the `"spans"` key is
absent (the code guards with `if "spans" in line`). -/
structure Line where
  spans : Option (List Span)
  deriving DecidableEq

/-- A PyMuPDF rectangle `(x0, y0, x1, y1)`. -/
structure BBox where
  x0 : ℚ
  y0 : ℚ
  x1 : ℚ
  y1 : ℚ
  deriving DecidableEq

/-- A page content block of `page.get_text("dict")["blocks"]`: type 1 is an
image block, type 0 a text block; `lines` is `none` when the `"lines"` key is
absent (the code guards with `if "lines" in block`). -/
inductive Block where
  | image (bbox : BBox)
  | text (bbox : BBox) (lines : Option (List Line))
  deriving DecidableEq

/-- `span.get("text", "")`. -/
def spanText (s : Span) : List Char := s.text.getD []

/-- `_extract_text_from_block` (lines 165-173): concatenate every span's text
followed by one space, over all lines that carry spans, then `strip()`. -/
def extract_text_from_block (lines : Option (List Line)) : List Char :=
  pyStrip (match lines with
    | none => []
    | some ls =>
      (ls.map (fun ln =>
        match ln.spans with
        | none => []
        | some sps => (sps.map (fun sp => spanText sp ++ [' '])).flatten)).flatten)

/-- The while loop of `_analyze_text_blocks` (lines 105-111): walk the blocks
after the candidate, skipping image blocks and text blocks whose extracted
text is empty, until `need` non-empty texts are collected or the list ends. -/
def collectTexts : List Block → Nat → List (List Char)
  | _, 0 => []
  | [], _ + 1 => []
  | Block.image _ :: rest, n + 1 => collectTexts rest (n + 1)
  | Block.text _ lines :: rest, n + 1 =>
    let t := extract_text_from_block lines
    if t = [] then collectTexts rest (n + 1) else t :: collectTexts rest n

/-- The marker phrase of the caption grammar. -/
def defectCodeMarker : List Char := "defect code".toList

/-- One attempted match of `re.search(r'defect code\s+(\d+)', w4, IGNORECASE)`
at the head of `l`: the marker (case-insensitively), then at least one
whitespace character, then at least one digit; the captured group is the
maximal digit run (greedy `\d+`).  Since no digit is whitespace, "one or more
whitespace then a digit" is equivalent to "maximal whitespace run is
non-empty and is followed by a digit". -/
def codeMatchAt (l : List Char) : Option (List Char) :=
  if startsWithChars defectCodeMarker (lowerChars l) then
    let after := l.drop defectCodeMarker.length
    if after.takeWhile pyIsSpace = [] then none
    else
      let ds := (after.dropWhile pyIsSpace).takeWhile Char.isDigit
      if ds = [] then none else some ds
  else none

/-- `re.search`: the leftmost position at which the pattern matches. -/
def searchDefectCode : List Char → Option (List Char)
  | [] => none
  | l@(_ :: rest) =>
    match codeMatchAt l with
    | some ds => some ds
    | none => searchDefectCode rest

/-- The keyword looked for in `w5`. -/
def defectWord : List Char := "defect".toList

/-- Does `re.split(r'\s+defect', w5, IGNORECASE)`'s pattern match at the head
of `l`?  At least one whitespace character followed by "defect"
case-insensitively; again maximal munch of the whitespace run is equivalent. -/
def splitHeadHere (l : List Char) : Bool :=
  match l with
  | [] => false
  | c :: _ => pyIsSpace c && startsWithChars defectWord (lowerChars (l.dropWhile pyIsSpace))

/-- `re.split(r'\s+defect', w5, IGNORECASE)[0]`: the text before the leftmost
match of the pattern; the whole string when the pattern never matches. -/
def beforeDefectSplit : List Char → List Char
  | [] => []
  | l@(c :: rest) => if splitHeadHere l then [] else c :: beforeDefectSplit rest

/-- The caption grammar of `_analyze_text_blocks` (lines 116-137) applied to
the fifth and sixth collected texts: marker pre-check on `w4`, digit
extraction, "defect" keyword check on `w5`, split and strip of the reason. -/
def extract_fields (w4 w5 : List Char) : Option (List Char × List Char) :=
  if containsSub defectCodeMarker (lowerChars w4) then
    match searchDefectCode w4 with
    | none => none
    | some code =>
      if containsSub defectWord (lowerChars w5) then
        let r := pyStrip (beforeDefectSplit w5)
        if r = [] then none else some (code, r)
      else none
  else none

/-- `_analyze_text_blocks` (lines 99-137): collect the six-text window after
`startIndex`, reject a short window, then apply the caption grammar. -/
def analyze_text_blocks (blocks : List Block) (startIndex : Nat) :
    Option (List Char × List Char) :=
  let window := collectTexts (blocks.drop (startIndex + 1)) 6
  if window.length < 6 then none
  else extract_fields (window.getD 4 []) (window.getD 5 [])

/-- An entry of `page.get_images(full=True)` together with the placement
rectangles `page.get_image_rects(xref)` and the payload
`doc.extract_image(xref)` would return for its xref. -/
structure RenderedImage where
  rects : List BBox
  bytes : List Char
  ext : List Char
  deriving DecidableEq

/-- Centre x of a rectangle, `(x0 + x1) / 2`. -/
def centerX (b : BBox) : ℚ := (b.x0 + b.x1) / 2

/-- Centre y of a rectangle, `(y0 + y1) / 2`. -/
def centerY (b : BBox) : ℚ := (b.y0 + b.y1) / 2

/-- Squared Euclidean distance between the centroids of two rectangles. -/
def distSq (b r : BBox) : ℚ :=
  (centerX r - centerX b) ^ 2 + (centerY r - centerY b) ^ 2

/-- The loop of `_find_matching_image` (lines 147-161): entries without any
placement rectangle are skipped, the first rectangle of an entry is used, and
the best index is replaced only on strictly smaller distance (`best = none`
models the initial `min_distance = inf`, which every finite distance beats). -/
def fmiGo (bbox : BBox) : List (Nat × RenderedImage) → Option (Nat × ℚ) → Option (Nat × ℚ)
  | [], best => best
  | (i, img) :: rest, best =>
    match img.rects with
    | [] => fmiGo bbox rest best
    | r :: _ =>
      let d := distSq bbox r
      match best with
      | none => fmiGo bbox rest (some (i, d))
      | some (bi, bd) =>
        if d < bd then fmiGo bbox rest (some (i, d)) else fmiGo bbox rest (some (bi, bd))

/-- `_find_matching_image` (lines 139-163). -/
def find_matching_image (bbox : BBox) (imgs : List RenderedImage) : Option Nat :=
  (fmiGo bbox imgs.enum none).map Prod.fst

/-- The image-block collection of `extract_defects_from_pdf` (lines 43-50):
every type-1 block, tagged with its index in the block list and its bbox. -/
def imageBlocksOf (blocks : List Block) : List (Nat × BBox) :=
  blocks.enum.filterMap (fun p =>
    match p.2 with
    | Block.image bb => some (p.1, bb)
    | Block.text _ _ => none)

/-- `image_blocks.sort(key=lambda x: x["y_position"])` (line 53): Python's
sort is stable, as is insertion sort, and stable sorts of the same list under
the same total preorder agree. -/
def sortedImageBlocks (blocks : List Block) : List (Nat × BBox) :=
  List.insertionSort (fun a b => a.2.y0 ≤ b.2.y0) (imageBlocksOf blocks)

/-- The candidate loop header of lines 56-58: enumerate the sorted image
blocks and skip the entry with index 0. -/
def candidateBlocks (blocks : List Block) : List (Nat × BBox) :=
  (((sortedImageBlocks blocks).enum).filter (fun p => p.1 != 0)).map Prod.snd

/-- One extracted item (lines 79-87). -/
structure DefectRecord where
  pdf_name : List Char
  page : Nat
  defect_code : List Char
  reason : List Char
  clean_reason : List Char
  image_data : List Char
  image_ext : List Char
  deriving DecidableEq

/-- Lines 73-77: sanitize the reason into the grouping key, substituting
`defect_<code>` when the sanitized key is empty or the single underscore. -/
def clean_reason_of (reason code : List Char) : List Char :=
  let c := sanitize_filename reason
  if c = [] ∨ c = ['_'] then "defect_".toList ++ code else c

/-- The per-page state the extractor reads: the ordered block list and the
page's rendered images. -/
structure PageData where
  blocks : List Block
  images : List RenderedImage
  deriving DecidableEq

/-- The per-candidate body of lines 56-87: analyze the caption window, match
a rendered image, and assemble the record. -/
def processPage (pd : PageData) (pageNum : Nat) (filename : List Char) : List DefectRecord :=
  (candidateBlocks pd.blocks).filterMap (fun ib =>
    match analyze_text_blocks pd.blocks ib.1 with
    | none => none
    | some (code, reason) =>
      match find_matching_image ib.2 pd.images with
      | none => none
      | some i =>
        match pd.images.get? i with
        | none => none
        | some img =>
          some { pdf_name := filename, page := pageNum, defect_code := code,
                 reason := reason, clean_reason := clean_reason_of reason code,
                 image_data := img.bytes, image_ext := img.ext })

/-- The page loop of `extract_defects_from_pdf` (line 37): `n` pages already
consumed, so the next page is numbered `n + 1`. -/
def extractGo (filename : List Char) : List PageData → Nat → List DefectRecord
  | [], _ => []
  | pd :: rest, n => processPage pd (n + 1) filename ++ extractGo filename rest (n + 1)

/-- `extract_defects_from_pdf` (lines 29-97): pages in order, 1-based
numbering. -/
def extract_defects_from_pdf (pages : List PageData) (filename : List Char) : List DefectRecord :=
  extractGo filename pages 0

/-- The reason key consists only of underscores. -/
def all_underscores (l : List Char) : Prop := ∀ c ∈ l, c = '_'

instance (l : List Char) : Decidable (all_underscores l) :=
  List.decidableBAll _ l

/-- A block that the window scan counts: a text block whose extracted text is
non-empty. -/
def isCountedText (b : Block) : Bool :=
  match b with
  | Block.image _ => false
  | Block.text _ lines => extract_text_from_block lines != []

/-- The span texts of a block, in order: lines without a `"spans"` key
contribute nothing, spans without a `"text"` key contribute the empty
string. -/
def spanTextsOf (lines : Option (List Line)) : List (List Char) :=
  match lines with
  | none => []
  | some ls =>
    (ls.map (fun ln =>
      match ln.spans with
      | none => []
      | some sps => sps.map spanText)).flatten

/-- Join texts with a single space separator, as the spec words it. -/
def joinWithSpace : List (List Char) → List Char
  | [] => []
  | [t] => t
  | t :: u :: rest => t ++ [' '] ++ joinWithSpace (u :: rest)

/-- Stated from the spec's words (§4.2): flatten a text block's lines/spans
into one string by concatenating the span texts with a single space
separator, then trim leading and trailing whitespace. -/
def specTextNormalize (lines : Option (List Line)) : List Char :=
  pyStrip (joinWithSpace (spanTextsOf lines))

/-- Each span text followed by one trailing space, concatenated — the shape
the code builds before stripping. -/
def concatTrailing (ts : List (List Char)) : List Char :=
  (ts.map (fun t => t ++ [' '])).flatten

/-- A one-line caption text block (bbox unused by the engine). -/
def capBlock (s : String) : Block :=
  Block.text ⟨0, 0, 0, 0⟩ (some [⟨some [⟨some s.toList⟩]⟩])

/-- A full six-text caption satisfying the grammar. -/
def c2CaptionBlocks : List Block :=
  [capBlock "Photo 1", capBlock "Location A", capBlock "Item 3",
   capBlock "Severity High", capBlock "Defect Code 107",
   capBlock "Loose Bolt Defect Found"]

/-- A page with three image blocks (the first is skipped) and two full
captions, so both candidates produce records. -/
def c2Blocks : List Block :=
  Block.image ⟨0, 0, 10, 10⟩ :: Block.image ⟨0, 20, 10, 30⟩ ::
    (c2CaptionBlocks ++ (Block.image ⟨0, 40, 10, 50⟩ :: c2CaptionBlocks))

/-- The page's single rendered image. -/
def c2Images : List RenderedImage :=
  [⟨[⟨0, 0, 10, 10⟩], "payload0".toList, "png".toList⟩]

/-! ### Properties of the sanitizer -/

/-- The adjacent-pair invariant established by `collapseUnderscores`: no two
consecutive underscores. -/
def noTwoUnderscores (a b : Char) : Prop := ¬(a = '_' ∧ b = '_')

instance (a b : Char) : Decidable (noTwoUnderscores a b) :=
  instDecidableNot

theorem chain_noTwo_of_not_mem : ∀ l : List Char, '_' ∉ l →
    List.Chain' noTwoUnderscores l
  | [], _ => List.chain'_nil
  | [c], _ => List.chain'_singleton c
  | a :: b :: t, h => by
    rw [List.chain'_cons]
    refine ⟨fun hab => h (by rw [hab.1]; exact List.mem_cons_self _ _), ?_⟩
    exact chain_noTwo_of_not_mem (b :: t) (fun hm => h (List.mem_cons_of_mem a hm))

theorem collapseUnderscores_head : ∀ (c : Char) (l : List Char),
    (collapseUnderscores (c :: l)).head? = some c
  | c, [] => by simp [collapseUnderscores]
  | c, d :: rest => by
    by_cases h : c = '_' ∧ d = '_'
    · obtain ⟨rfl, rfl⟩ := h
      simpa [collapseUnderscores] using collapseUnderscores_head '_' rest
    · simp [collapseUnderscores, h]

theorem collapseUnderscores_chain : ∀ l : List Char,
    List.Chain' noTwoUnderscores (collapseUnderscores l)
  | [] => by simp [collapseUnderscores]
  | [c] => by simp [collapseUnderscores]
  | c :: d :: rest => by
    by_cases h : c = '_' ∧ d = '_'
    · have heq : collapseUnderscores (c :: d :: rest) = collapseUnderscores (d :: rest) := by
        simp [collapseUnderscores, h]
      rw [heq]
      exact collapseUnderscores_chain (d :: rest)
    · have heq : collapseUnderscores (c :: d :: rest) = c :: collapseUnderscores (d :: rest) := by
        simp [collapseUnderscores, h]
      rw [heq, List.chain'_cons']
      refine ⟨?_, collapseUnderscores_chain (d :: rest)⟩
      intro y hy
      rw [collapseUnderscores_head d rest, Option.mem_some_iff] at hy
      subst hy
      exact h

theorem collapseUnderscores_eq_self : ∀ l : List Char,
    List.Chain' noTwoUnderscores l → collapseUnderscores l = l
  | [], _ => by simp [collapseUnderscores]
  | [c], _ => by simp [collapseUnderscores]
  | c :: d :: rest, h => by
    rw [List.chain'_cons] at h
    have h1 : ¬(c = '_' ∧ d = '_') := h.1
    have heq : collapseUnderscores (c :: d :: rest) = c :: collapseUnderscores (d :: rest) := by
      simp [collapseUnderscores, h1]
    rw [heq, collapseUnderscores_eq_self (d :: rest) h.2]

theorem collapseUnderscores_sublist : ∀ l : List Char,
    List.Sublist (collapseUnderscores l) l
  | [] => by simp [collapseUnderscores]
  | [c] => by simp [collapseUnderscores]
  | c :: d :: rest => by
    by_cases h : c = '_' ∧ d = '_'
    · have heq : collapseUnderscores (c :: d :: rest) = collapseUnderscores (d :: rest) := by
        simp [collapseUnderscores, h]
      rw [heq]
      exact List.Sublist.cons c (collapseUnderscores_sublist (d :: rest))
    · have heq : collapseUnderscores (c :: d :: rest) = c :: collapseUnderscores (d :: rest) := by
        simp [collapseUnderscores, h]
      rw [heq]
      exact List.Sublist.cons₂ c (collapseUnderscores_sublist (d :: rest))

theorem pyStrip_infix_self (l : List Char) : pyStrip l <:+: l :=
  List.IsInfix.trans ( List.IsSuffix.isInfix (List.dropWhile_suffix pyIsSpace))
    ( List.IsPrefix.isInfix ( List.rdropWhile_prefix pyIsSpace l))

theorem pyStrip_idem (l : List Char) : pyStrip (pyStrip l) = pyStrip l := by
  have hz : List.rdropWhile pyIsSpace (pyStrip l) = pyStrip l := by
    rw [List.rdropWhile_eq_self_iff]
    intro hne
    have hyne : List.rdropWhile pyIsSpace l ≠ [] := by
      intro h0
      apply hne
      show List.dropWhile pyIsSpace (List.rdropWhile pyIsSpace l) = []
      rw [h0]
      rfl
    obtain ⟨w, hw⟩ : pyStrip l <:+ List.rdropWhile pyIsSpace l :=
      List.dropWhile_suffix pyIsSpace
    have h1 : (List.rdropWhile pyIsSpace l).getLast? = some ((pyStrip l).getLast hne) := by
      rw [← hw, List.getLast?_append_of_ne_nil w hne, List.getLast?_eq_getLast _ hne]
    have h2 : (List.rdropWhile pyIsSpace l).getLast? =
        some ((List.rdropWhile pyIsSpace l).getLast hyne) :=
      List.getLast?_eq_getLast _ hyne
    have h3 : (pyStrip l).getLast hne = (List.rdropWhile pyIsSpace l).getLast hyne := by
      have := h1.symm.trans h2
      exact Option.some_injective _ this
    rw [h3]
    exact List.rdropWhile_last_not pyIsSpace l hyne
  show List.dropWhile pyIsSpace (List.rdropWhile pyIsSpace (pyStrip l)) = pyStrip l
  rw [hz]
  show List.dropWhile pyIsSpace (List.dropWhile pyIsSpace (List.rdropWhile pyIsSpace l)) = _
  rw [List.dropWhile_idempotent]
  rfl

theorem sanitize_filename_no_illegal (l : List Char) :
    ∀ c ∈ sanitize_filename l, c ∉ illegalChars := by
  by_cases h0 : l = []
  · subst h0
    rw [sanitize_filename]
    simp only [if_pos rfl]
    decide
  · rw [sanitize_filename, if_neg h0]
    intro c hc
    have h1 : c ∈ (collapseUnderscores (replaceIllegal l)).take 100 :=
      ((pyStrip_infix_self _).sublist).mem hc
    have h2 : c ∈ collapseUnderscores (replaceIllegal l) :=
      (( List.take_prefix 100 _).sublist).mem h1
    have h3 : c ∈ replaceIllegal l := (collapseUnderscores_sublist _).mem h2
    rw [replaceIllegal, List.mem_map] at h3
    obtain ⟨a, _, ha⟩ := h3
    by_cases hil : a ∈ illegalChars
    · rw [if_pos hil] at ha
      rw [← ha]
      decide
    · rw [if_neg hil] at ha
      exact ha ▸ hil

theorem sanitize_filename_chain (l : List Char) :
    List.Chain' noTwoUnderscores (sanitize_filename l) := by
  by_cases h0 : l = []
  · subst h0
    have huk : sanitize_filename [] = "unknown".toList := by decide
    rw [huk]
    exact chain_noTwo_of_not_mem _ (by decide)
  · rw [sanitize_filename, if_neg h0]
    exact List.Chain'.infix
      ( List.Chain'.prefix (collapseUnderscores_chain (replaceIllegal l))
        ( List.take_prefix 100 _))
      (pyStrip_infix_self _)

theorem sanitize_filename_length_le (l : List Char) :
    (sanitize_filename l).length ≤ 100 := by
  by_cases h0 : l = []
  · subst h0
    rw [sanitize_filename]
    simp only [if_pos rfl]
    decide
  · rw [sanitize_filename, if_neg h0]
    calc (pyStrip ((collapseUnderscores (replaceIllegal l)).take 100)).length
        ≤ ((collapseUnderscores (replaceIllegal l)).take 100).length :=
          ((pyStrip_infix_self _).sublist).length_le
      _ ≤ 100 := by simp [List.length_take]

theorem sanitize_filename_strip_fixed (l : List Char) :
    pyStrip (sanitize_filename l) = sanitize_filename l := by
  by_cases h0 : l = []
  · subst h0
    rw [sanitize_filename]
    simp only [if_pos rfl]
    decide
  · rw [sanitize_filename, if_neg h0]
    exact pyStrip_idem _

theorem replaceIllegal_eq_self (l : List Char) (h : ∀ c ∈ l, c ∉ illegalChars) :
    replaceIllegal l = l := by
  rw [replaceIllegal]
  conv_rhs => rw [← List.map_id l]
  exact List.map_congr_left (fun c hc => by rw [if_neg (h c hc), id])

theorem chain_all_underscore_short (l : List Char)
    (hch : List.Chain' noTwoUnderscores l) (hall : ∀ c ∈ l, c = '_') :
    l = [] ∨ l = ['_'] := by
  match l, hch, hall with
  | [], _, _ => exact Or.inl rfl
  | [c], _, hall => exact Or.inr (by rw [hall c (by simp)])
  | a :: b :: t, hch, hall =>
    rw [List.chain'_cons] at hch
    exact absurd ⟨hall a (by simp), hall b (by simp)⟩ hch.1


/-- Claim C6 (counterexample): the sanitizer is not idempotent as claimed:
the single space sanitizes to the empty string, which re-sanitizes to
"unknown". -/
theorem c6_sanitize_idempotence_counterexample :
    sanitize_filename [' '] = [] ∧
    sanitize_filename (sanitize_filename [' ']) = "unknown".toList ∧
    sanitize_filename (sanitize_filename [' ']) ≠ sanitize_filename [' '] := by
  decide

/-- Claim C6 (amended): the grouping-key sanitizer is idempotent on every
input whose sanitized form is non-empty: `sanitize(sanitize(x)) =
sanitize(x)` whenever `sanitize(x) ≠ ""`. -/
theorem c6_sanitize_idempotent_on_nonempty : ∀ l : List Char,
    sanitize_filename l ≠ [] →
    sanitize_filename (sanitize_filename l) = sanitize_filename l := by
  intro l hne
  have hni := sanitize_filename_no_illegal l
  have hch := sanitize_filename_chain l
  have hlen := sanitize_filename_length_le l
  have hstr := sanitize_filename_strip_fixed l
  rw [sanitize_filename, if_neg hne, replaceIllegal_eq_self _ hni,
    collapseUnderscores_eq_self _ hch, List.take_of_length_le hlen, hstr]

/-- Claim C6 (witness): the amended idempotence at the concrete input "a". -/
theorem c6_sanitize_idempotent_witness :
    sanitize_filename ['a'] ≠ [] ∧
    sanitize_filename (sanitize_filename ['a']) = sanitize_filename ['a'] :=
  ⟨by decide, c6_sanitize_idempotent_on_nonempty ['a'] (by decide)⟩

/-- Claim C7: when the reason sanitizes to the empty string or to a string of
only underscores, the grouping key is the fallback `defect_<code>`; the
emitted grouping key is never empty and never consists solely of
underscores. -/
theorem c7_grouping_key_fallback (reason code : List Char) :
    ((sanitize_filename reason = [] ∨ all_underscores (sanitize_filename reason)) →
      clean_reason_of reason code = "defect_".toList ++ code) ∧
    clean_reason_of reason code ≠ [] ∧
    ¬ all_underscores (clean_reason_of reason code) := by
  have hshort : all_underscores (sanitize_filename reason) →
      sanitize_filename reason = [] ∨ sanitize_filename reason = ['_'] :=
    fun hall => chain_all_underscore_short _ (sanitize_filename_chain reason) hall
  by_cases hcond : sanitize_filename reason = [] ∨ sanitize_filename reason = ['_']
  · have hclean : clean_reason_of reason code = "defect_".toList ++ code := by
      simp only [clean_reason_of]
      rw [if_pos hcond]
    refine ⟨fun _ => hclean, ?_, ?_⟩
    · rw [hclean]
      intro h
      have hd : ('d' : Char) ∈ "defect_".toList ++ code :=
        List.mem_append_left _ (by decide)
      rw [h] at hd
      exact absurd hd (List.not_mem_nil 'd')
    · rw [hclean]
      intro hall
      have hd : ('d' : Char) ∈ "defect_".toList ++ code :=
        List.mem_append_left _ (by decide)
      exact absurd (hall 'd' hd) (by decide)
  · have hclean : clean_reason_of reason code = sanitize_filename reason := by
      simp only [clean_reason_of]
      rw [if_neg hcond]
    have hne1 : sanitize_filename reason ≠ [] := fun h => hcond (Or.inl h)
    refine ⟨fun h => ?_, ?_, ?_⟩
    · rcases h with h | h
      · exact absurd h hne1
      · exact absurd (hshort h) hcond
    · rw [hclean]
      exact hne1
    · rw [hclean]
      intro hall
      exact hcond (hshort hall)

/-- Claim C7 (witness): the all-illegal reason `"///"` at code `"107"` gets
the fallback grouping key `defect_107`. -/
theorem c7_grouping_key_fallback_witness :
    clean_reason_of "///".toList "107".toList = "defect_107".toList ∧
    clean_reason_of "///".toList "107".toList ≠ [] := by
  have h := c7_grouping_key_fallback "///".toList "107".toList
  refine ⟨?_, h.2.1⟩
  rw [h.1 (Or.inr (by decide))]
  decide

/-! ### Candidate selection -/

theorem filter_enumFrom_ne_zero {α : Type} : ∀ (l : List α) (n : Nat),
    ((List.enumFrom (n + 1) l).filter (fun p => p.1 != 0)).map Prod.snd = l
  | [], _ => rfl
  | a :: t, n => by
    have ih := filter_enumFrom_ne_zero t (n + 1)
    show (((n + 1, a) :: List.enumFrom (n + 2) t).filter (fun p => p.1 != 0)).map
      Prod.snd = a :: t
    rw [List.filter_cons, if_pos (by simp)]
    rw [List.map_cons]
    exact congrArg (a :: ·) ih

theorem candidateBlocks_eq_drop_one (blocks : List Block) :
    candidateBlocks blocks = (sortedImageBlocks blocks).drop 1 := by
  rw [candidateBlocks]
  cases h : sortedImageBlocks blocks with
  | nil => rfl
  | cons a t =>
    show (((0, a) :: List.enumFrom 1 t).filter (fun p => p.1 != 0)).map Prod.snd = t
    rw [List.filter_cons, if_neg (by simp)]
    exact filter_enumFrom_ne_zero t 0

/-- Claim C3: after sorting the page's image blocks by the top-edge
y-coordinate, the first image block is skipped and every other one is a
candidate; in particular for three image blocks already in y-order exactly
the second and the third are candidates and the first is not. -/
theorem c3_skip_first_candidates :
    (∀ blocks : List Block, candidateBlocks blocks = (sortedImageBlocks blocks).drop 1) ∧
    candidateBlocks [Block.image ⟨0, 0, 10, 10⟩, Block.image ⟨0, 20, 10, 30⟩,
        Block.image ⟨0, 40, 10, 50⟩] =
      [(1, ⟨0, 20, 10, 30⟩), (2, ⟨0, 40, 10, 50⟩)] ∧
    (0, (⟨0, 0, 10, 10⟩ : BBox)) ∉ candidateBlocks [Block.image ⟨0, 0, 10, 10⟩,
        Block.image ⟨0, 20, 10, 30⟩, Block.image ⟨0, 40, 10, 50⟩] :=
  ⟨candidateBlocks_eq_drop_one, by decide, by decide⟩

/-! ### The caption window scan -/


theorem collectTexts_length : ∀ (l : List Block) (n : Nat),
    (collectTexts l n).length = min n (l.countP isCountedText)
  | _, 0 => by simp [collectTexts]
  | [], _ + 1 => by simp [collectTexts]
  | Block.image bb :: rest, n + 1 => by
    rw [show collectTexts (Block.image bb :: rest) (n + 1) = collectTexts rest (n + 1)
      from rfl]
    rw [collectTexts_length rest (n + 1), List.countP_cons]
    simp [isCountedText]
  | Block.text bb lines :: rest, n + 1 => by
    by_cases ht : extract_text_from_block lines = []
    · rw [show collectTexts (Block.text bb lines :: rest) (n + 1) =
        collectTexts rest (n + 1) from by simp [collectTexts, ht]]
      rw [collectTexts_length rest (n + 1), List.countP_cons]
      simp [isCountedText, ht]
    · rw [show collectTexts (Block.text bb lines :: rest) (n + 1) =
        extract_text_from_block lines :: collectTexts rest n from by
          simp [collectTexts, ht]]
      rw [List.length_cons, collectTexts_length rest n, List.countP_cons]
      have : (isCountedText (Block.text bb lines) = true) := by
        simp [isCountedText, ht]
      rw [if_pos this]
      omega

/-- Claim C4: a candidate followed by fewer than six non-empty text blocks
before the end of the block list yields no record. -/
theorem c4_short_window_rejected (blocks : List Block) (start : Nat)
    (h : (blocks.drop (start + 1)).countP isCountedText < 6) :
    analyze_text_blocks blocks start = none := by
  have hlen : (collectTexts (blocks.drop (start + 1)) 6).length < 6 := by
    rw [collectTexts_length]
    omega
  simp only [analyze_text_blocks]
  rw [if_pos hlen]

/-- Claim C4 (witness): a lone image block has no following text at all, and
its candidate analysis returns nothing. -/
theorem c4_short_window_witness :
    (([Block.image ⟨0, 0, 1, 1⟩] : List Block).drop 1).countP isCountedText < 6 ∧
    analyze_text_blocks [Block.image ⟨0, 0, 1, 1⟩] 0 = none :=
  ⟨by decide, c4_short_window_rejected _ 0 (by decide)⟩

/-! ### The caption grammar on w4 -/

/-- Claim C1 (counterexample): the window of P3, `w4 = "Defect Code: 107"`,
`w5 = "Loose Bolt Defect Found"`, is rejected by the field extractor: the
regex `defect code\s+(\d+)` requires whitespace directly after the marker
phrase, and the colon breaks the match. -/
theorem c1_colon_counterexample :
    extract_fields "Defect Code: 107".toList "Loose Bolt Defect Found".toList = none := by
  decide

/-- Claim C1 (amended): the defect code is the first run of decimal digits
separated from the marker phrase "defect code" by whitespace alone; with
`w4 = "Defect Code 107"` the extractor succeeds with code "107" and reason
"Loose Bolt", while punctuation (`:` or `=`) between the marker and the
digits loses the match. -/
theorem c1_code_after_whitespace_only :
    extract_fields "Defect Code 107".toList "Loose Bolt Defect Found".toList =
      some ("107".toList, "Loose Bolt".toList) ∧
    extract_fields "Defect Code = 107".toList "Loose Bolt Defect Found".toList = none ∧
    searchDefectCode "Defect Code 107".toList = some "107".toList := by
  decide

/-! ### Nearest-centroid matching -/

/-- Claim C5: a candidate bbox with centroid (100, 200) against rendered
images with placement centroids (102, 198) and (500, 500) resolves to the
first. -/
theorem c5_nearest_centroid_concrete :
    find_matching_image ⟨90, 190, 110, 210⟩
      [⟨[⟨100, 196, 104, 200⟩], "imgA".toList, "png".toList⟩,
       ⟨[⟨498, 498, 502, 502⟩], "imgB".toList, "png".toList⟩] = some 0 := by
  norm_num [find_matching_image, fmiGo, distSq, centerX, centerY, List.enum,
    List.enumFrom]

/-! ### The caption grammar on w5 -/

/-- Claim C8: a six-window whose sixth text lacks "defect", or whose text
before the first whitespace+"defect" split is empty after trimming, yields
no record; and whenever the extractor succeeds, the reason is exactly the
trimmed text before that split point. -/
theorem c8_reason_extraction (w4 w5 : List Char) :
    ((containsSub defectWord (lowerChars w5) = false ∨
        pyStrip (beforeDefectSplit w5) = []) →
      extract_fields w4 w5 = none) ∧
    (∀ code reason, extract_fields w4 w5 = some (code, reason) →
      containsSub defectWord (lowerChars w5) = true ∧
      reason = pyStrip (beforeDefectSplit w5) ∧
      pyStrip (beforeDefectSplit w5) ≠ []) := by
  cases hc4 : containsSub defectCodeMarker (lowerChars w4) with
  | false =>
    refine ⟨fun _ => by simp [extract_fields, hc4], fun code reason hsome => ?_⟩
    simp [extract_fields, hc4] at hsome
  | true =>
    cases hsearch : searchDefectCode w4 with
    | none =>
      refine ⟨fun _ => by simp [extract_fields, hc4, hsearch], fun code reason hsome => ?_⟩
      simp [extract_fields, hc4, hsearch] at hsome
    | some cd =>
      cases hc5 : containsSub defectWord (lowerChars w5) with
      | false =>
        refine ⟨fun _ => by simp [extract_fields, hc4, hsearch, hc5],
          fun code reason hsome => ?_⟩
        simp [extract_fields, hc4, hsearch, hc5] at hsome
      | true =>
        by_cases hstrip : pyStrip (beforeDefectSplit w5) = []
        · refine ⟨fun _ => by simp [extract_fields, hc4, hsearch, hc5, hstrip],
            fun code reason hsome => ?_⟩
          simp [extract_fields, hc4, hsearch, hc5, hstrip] at hsome
        · refine ⟨fun h => ?_, fun code reason hsome => ?_⟩
          · rcases h with h | h
            · exact absurd h (by simp [hc5])
            · exact absurd h hstrip
          · simp [extract_fields, hc4, hsearch, hc5, hstrip] at hsome
            exact ⟨rfl, hsome.2.symm, hstrip⟩

/-- Claim C8 (witness): a sixth text without the word "defect" is rejected
whatever the fifth text says. -/
theorem c8_reason_extraction_witness :
    extract_fields "Defect Code 107".toList "no keyword here".toList = none :=
  (c8_reason_extraction "Defect Code 107".toList "no keyword here".toList).1
    (Or.inl (by decide))

/-! ### Text normalization -/


theorem concatTrailing_eq_join : ∀ ts : List (List Char), ts ≠ [] →
    concatTrailing ts = joinWithSpace ts ++ [' ']
  | [], h => absurd rfl h
  | [t], _ => by simp [concatTrailing, joinWithSpace]
  | t :: u :: rest, _ => by
    have ih := concatTrailing_eq_join (u :: rest) (by simp)
    show (t ++ [' ']) ++ concatTrailing (u :: rest) = (t ++ [' '] ++ joinWithSpace (u :: rest)) ++ [' ']
    rw [ih]
    simp [List.append_assoc]

theorem pyStrip_append_space (l : List Char) : pyStrip (l ++ [' ']) = pyStrip l := by
  show List.dropWhile pyIsSpace (List.rdropWhile pyIsSpace (l ++ [' '])) = _
  rw [List.rdropWhile_concat_pos pyIsSpace l ' ' (by decide)]
  rfl

theorem pyStrip_concatTrailing (ts : List (List Char)) :
    pyStrip (concatTrailing ts) = pyStrip (joinWithSpace ts) := by
  cases ts with
  | nil => rfl
  | cons t rest =>
    rw [concatTrailing_eq_join (t :: rest) (by simp), pyStrip_append_space]

theorem extract_inner_eq : ∀ ls : List Line,
    (ls.map (fun ln =>
      match ln.spans with
      | none => []
      | some sps => (sps.map (fun sp => spanText sp ++ [' '])).flatten)).flatten =
    concatTrailing ((ls.map (fun ln =>
      match ln.spans with
      | none => []
      | some sps => sps.map spanText)).flatten)
  | [] => rfl
  | ln :: rest => by
    simp only [concatTrailing, List.map_cons, List.flatten_cons, List.map_append,
      List.flatten_append]
    rw [extract_inner_eq rest]
    simp only [concatTrailing]
    congr 1
    cases h : ln.spans with
    | none => rfl
    | some sps =>
      simp only [List.map_map]
      rfl

theorem extract_text_eq_spec (lines : Option (List Line)) :
    extract_text_from_block lines = specTextNormalize lines := by
  cases lines with
  | none => rfl
  | some ls =>
    have h1 : extract_text_from_block (some ls) =
        pyStrip ((ls.map (fun ln =>
          match ln.spans with
          | none => []
          | some sps => (sps.map (fun sp => spanText sp ++ [' '])).flatten)).flatten) := rfl
    rw [h1, extract_inner_eq ls, pyStrip_concatTrailing]
    rfl

/-- Claim C10: a text block without line/span structure normalizes to the
empty string and is skipped by the window scan like an absent block; and
text normalization equals the spec's join-with-single-space-then-trim. -/
theorem c10_malformed_block_and_normalization :
    (∀ lines : Option (List Line), extract_text_from_block lines = specTextNormalize lines) ∧
    extract_text_from_block none = [] ∧
    extract_text_from_block (some [⟨none⟩]) = [] ∧
    (∀ (bb : BBox) (rest : List Block) (n : Nat),
      collectTexts (Block.text bb none :: rest) (n + 1) = collectTexts rest (n + 1)) :=
  ⟨extract_text_eq_spec, by decide, by decide, fun bb rest n => by
    rw [show collectTexts (Block.text bb none :: rest) (n + 1) =
      if extract_text_from_block none = [] then collectTexts rest (n + 1)
      else extract_text_from_block none :: collectTexts rest n from rfl,
      if_pos (by decide)]⟩

/-! ### Record ordering across pages -/

theorem processPage_page_eq (pd : PageData) (k : Nat) (fn : List Char) :
    ∀ r ∈ processPage pd k fn, r.page = k := by
  intro r hr
  rw [processPage, List.mem_filterMap] at hr
  obtain ⟨ib, _, hf⟩ := hr
  split at hf
  · cases hf
  · split at hf
    · cases hf
    · split at hf
      · cases hf
      · injection hf with h
        subst h
        rfl

theorem pairwise_page_le_of_const : ∀ (l : List DefectRecord) (k : Nat),
    (∀ r ∈ l, r.page = k) →
    List.Pairwise (fun a b : DefectRecord => a.page ≤ b.page) l
  | [], _, _ => List.Pairwise.nil
  | a :: t, k, h => by
    refine List.Pairwise.cons (fun b hb => ?_)
      (pairwise_page_le_of_const t k (fun r hr => h r (List.mem_cons_of_mem a hr)))
    rw [h a (List.mem_cons_self a t), h b (List.mem_cons_of_mem a hb)]

theorem extractGo_page_gt (fn : List Char) : ∀ (pages : List PageData) (n : Nat),
    ∀ r ∈ extractGo fn pages n, n < r.page
  | [], _, r, hr => absurd hr (List.not_mem_nil r)
  | pd :: rest, n, r, hr => by
    rw [show extractGo fn (pd :: rest) n =
      processPage pd (n + 1) fn ++ extractGo fn rest (n + 1) from rfl,
      List.mem_append] at hr
    rcases hr with hr | hr
    · rw [processPage_page_eq pd (n + 1) fn r hr]
      omega
    · have := extractGo_page_gt fn rest (n + 1) r hr
      omega

theorem extractGo_pairwise (fn : List Char) : ∀ (pages : List PageData) (n : Nat),
    List.Pairwise (fun a b : DefectRecord => a.page ≤ b.page) (extractGo fn pages n)
  | [], _ => List.Pairwise.nil
  | pd :: rest, n => by
    rw [show extractGo fn (pd :: rest) n =
      processPage pd (n + 1) fn ++ extractGo fn rest (n + 1) from rfl,
      List.pairwise_append]
    refine ⟨pairwise_page_le_of_const _ (n + 1) (processPage_page_eq pd (n + 1) fn),
      extractGo_pairwise fn rest (n + 1), ?_⟩
    intro a ha b hb
    rw [processPage_page_eq pd (n + 1) fn a ha]
    have := extractGo_page_gt fn rest (n + 1) b hb
    omega

theorem enumFrom_shift {α : Type} : ∀ (l : List α) (i : Nat),
    List.enumFrom (i + 1) l = (List.enumFrom i l).map (fun q => (q.1 + 1, q.2))
  | [], _ => rfl
  | a :: t, i => by
    show (i + 1, a) :: List.enumFrom (i + 2) t =
      (i + 1, a) :: (List.enumFrom (i + 1) t).map (fun q => (q.1 + 1, q.2))
    rw [enumFrom_shift t (i + 1)]

theorem extractGo_eq_flatten (fn : List Char) : ∀ (pages : List PageData) (n : Nat),
    extractGo fn pages n =
      ((List.enumFrom 0 pages).map (fun q => processPage q.2 (q.1 + (n + 1)) fn)).flatten
  | [], _ => rfl
  | pd :: rest, n => by
    show processPage pd (n + 1) fn ++ extractGo fn rest (n + 1) =
      ((List.enumFrom 0 (pd :: rest)).map
        (fun q => processPage q.2 (q.1 + (n + 1)) fn)).flatten
    rw [show List.enumFrom 0 (pd :: rest) = (0, pd) :: List.enumFrom 1 rest from rfl,
      List.map_cons, List.flatten_cons, extractGo_eq_flatten fn rest (n + 1),
      enumFrom_shift rest 0, List.map_map]
    congr 1
    · simp
    · congr 1
      apply List.map_congr_left
      intro q _
      show processPage q.2 (q.1 + (n + 1 + 1)) fn = processPage q.2 (q.1 + 1 + (n + 1)) fn
      congr 1
      omega

/-- Claim C9: within one document the emitted records carry weakly increasing
1-based page numbers, and the record stream is exactly the concatenation, in
page order, of each page's records in candidate-selection order. -/
theorem c9_record_ordering (pages : List PageData) (fn : List Char) :
    extract_defects_from_pdf pages fn =
      (pages.enum.map (fun q => processPage q.2 (q.1 + 1) fn)).flatten ∧
    List.Pairwise (fun a b : DefectRecord => a.page ≤ b.page)
      (extract_defects_from_pdf pages fn) := by
  constructor
  · rw [extract_defects_from_pdf, extractGo_eq_flatten fn pages 0]
    rfl
  · rw [extract_defects_from_pdf]
    exact extractGo_pairwise fn pages 0

/-! ### Absence of a claimed-asset set in matching -/


/-- Claim C2 (counterexample): this page has two distinct candidates (block
indices 1 and 8) and a single rendered image; both candidates' emitted
records carry that image's payload, so two distinct candidates on one page
resolved to the same RenderedImage. -/
theorem c2_shared_image_counterexample :
    (processPage ⟨c2Blocks, c2Images⟩ 1 "report.pdf".toList).map
        (fun r => r.image_data) = ["payload0".toList, "payload0".toList] ∧
    (candidateBlocks c2Blocks).map Prod.fst = [1, 8] := by
  decide

/-- Claim C2 (amended): the matcher threads no claimed-asset set — each
candidate is matched against the page's full rendered-image list — so two
distinct candidates may resolve to the same RenderedImage, as the two
candidates of this page both resolve to image 0. -/
theorem c2_no_claimed_set :
    (candidateBlocks c2Blocks).map (fun ib => find_matching_image ib.2 c2Images) =
      [some 0, some 0] ∧
    ((candidateBlocks c2Blocks).map Prod.fst).Nodup := by
  decide
